import Mathlib

/-!
# Verification of the ghx_proc_gen rule compiler

Shallow embedding of the rule-compilation core of the `ghx_proc_gen`
procedural generation library:

* `ghx_proc_gen/src/generator/node.rs` — sockets, socket collections,
  node models, model expansion, rotations (present in the sources);
* `src/generator/rules.rs` — the adjacency-table construction
  (`Rules::new`, present in the sources);
* the grid direction module (`Direction`, `opposite`, `rotation_basis`)
  is not among the available sources and is modelled from the spec.

Rust `HashMap`/`HashSet` values are embedded as total functions to
insertion-ordered duplicate-free lists: only membership and (for the
per-socket model sets of `Rules::new`) iteration are observable.  The
iteration order of a `std::collections::HashSet` is randomized per
process, so wherever the Rust code iterates such a set the embedding
takes an explicit oracle `perm : List α → List α` choosing the
iteration order; a run of the program corresponds to a choice of
oracle whose output is a permutation of the set's elements.

`f32` weights are embedded as `ℚ`: the rule compiler only copies them.
-/

namespace GhxProcGen

/-- From node.rs: `NodeRotation` — a rotation around an axis, in the
counterclockwise direction. -/
inductive NodeRotation where
  | Rot0
  | Rot90
  | Rot180
  | Rot270
deriving DecidableEq, Repr, Fintype

namespace NodeRotation

/-- From node.rs: `NodeRotation::value` — the rotation in degrees. -/
def value : NodeRotation → Nat
  | Rot0 => 0
  | Rot90 => 90
  | Rot180 => 180
  | Rot270 => 270

/-- From node.rs: `NodeRotation::index` — index of the member in the
enumeration. -/
def index : NodeRotation → Nat
  | Rot0 => 0
  | Rot90 => 1
  | Rot180 => 2
  | Rot270 => 3

end NodeRotation

/-- From node.rs: `ALL_NODE_ROTATIONS`. -/
def ALL_NODE_ROTATIONS : List NodeRotation :=
  [NodeRotation.Rot0, NodeRotation.Rot90, NodeRotation.Rot180, NodeRotation.Rot270]

namespace NodeRotation

/-- From node.rs: `NodeRotation::rotated` —
`ALL_NODE_ROTATIONS[(self.index() + rotation.index()) % ALL_NODE_ROTATIONS.len()]`. -/
def rotated (self rotation : NodeRotation) : NodeRotation :=
  ALL_NODE_ROTATIONS.getD ((self.index + rotation.index) % ALL_NODE_ROTATIONS.length) Rot0

/-- From node.rs: `NodeRotation::next` — `self.rotated(Rot90)`. -/
def next (self : NodeRotation) : NodeRotation :=
  self.rotated Rot90

end NodeRotation

/-- Modelled from the spec: the grid direction enumeration of the grid
geometry module (`grid/direction.rs`, not among the available sources).
The direction indices are pinned by node.rs, whose
`SocketsCartesian2D`/`SocketsCartesian3D` conversions lay sockets out as
`[x_pos, y_pos, x_neg, y_neg]` resp.
`[x_pos, y_pos, x_neg, y_neg, z_pos, z_neg]`. -/
inductive Direction where
  | XForward
  | YForward
  | XBackward
  | YBackward
  | ZForward
  | ZBackward
deriving DecidableEq, Repr

namespace Direction

/-- Modelled from the spec: numeric index of a direction (Rust
`direction as usize`), pinned by the socket layout in node.rs. -/
def toIndex : Direction → Nat
  | XForward => 0
  | YForward => 1
  | XBackward => 2
  | YBackward => 3
  | ZForward => 4
  | ZBackward => 5

/-- Modelled from the spec: the opposite-direction involution of the
grid geometry module. -/
def opposite : Direction → Direction
  | XForward => XBackward
  | YForward => YBackward
  | XBackward => XForward
  | YBackward => YForward
  | ZForward => ZBackward
  | ZBackward => ZForward

/-- Modelled from the spec: `rotation_basis` of the grid geometry
module — the four non-axis faces forming the planar basis
`[d0, d1, d2, d3]` of a rotation axis, in counterclockwise order viewed
from the positive axis direction.  For the fixed 2D rotation axis
`ZForward` the basis is `[XForward, YForward, XBackward, YBackward]`. -/
def rotation_basis : Direction → List Direction
  | XForward => [YForward, ZForward, YBackward, ZBackward]
  | XBackward => [YForward, ZBackward, YBackward, ZForward]
  | YForward => [ZForward, XForward, ZBackward, XBackward]
  | YBackward => [XForward, ZForward, XBackward, ZBackward]
  | ZForward => [XForward, YForward, XBackward, YBackward]
  | ZBackward => [YForward, XForward, YBackward, XBackward]

end Direction

/-- Modelled from the spec: the 2D cartesian direction set
(`CARTESIAN_2D.dirs`). -/
def CARTESIAN_2D_DIRS : List Direction :=
  [Direction.XForward, Direction.YForward, Direction.XBackward, Direction.YBackward]

/-- Modelled from the spec: the 3D cartesian direction set
(`CARTESIAN_3D.dirs`). -/
def CARTESIAN_3D_DIRS : List Direction :=
  [Direction.XForward, Direction.YForward, Direction.XBackward, Direction.YBackward,
   Direction.ZForward, Direction.ZBackward]

/-- From rules.rs (via node.rs's doc): `CARTESIAN_2D_ROTATION_AXIS` —
in 2D the rotation axis is fixed to `Direction::ZForward`. -/
def CARTESIAN_2D_ROTATION_AXIS : Direction := Direction.ZForward

/-- From node.rs: `SocketId` — id of a possible connection type
(Rust `u64`). -/
abbrev SocketId := Nat

/-- From node.rs: `Socket` — a socket index (Rust `u32`) paired with a
rotation. -/
structure Socket where
  socket_index : Nat
  rot : NodeRotation
deriving DecidableEq, Repr

namespace Socket

/-- From node.rs: `Socket::new` — a socket at `Rot0`. -/
def new (socket_index : Nat) : Socket :=
  ⟨socket_index, NodeRotation.Rot0⟩

/-- From node.rs: `Socket::id` —
`socket_index as u64 + ((rot.index() as u64) << 32)`.  With
`socket_index < 2^32` and `rot.index < 4` the `u64` arithmetic cannot
overflow, so the embedding uses plain `Nat` arithmetic. -/
def id (self : Socket) : SocketId :=
  self.socket_index + self.rot.index * 2 ^ 32

/-- From node.rs: `Socket::rotated`. -/
def rotated (self : Socket) (rotation : NodeRotation) : Socket :=
  { self with rot := self.rot.rotated rotation }

end Socket

/-- Insert into a `HashSet` embedded as a duplicate-free list: no-op on
membership, append otherwise (the list order stands in for the set's
contents only; iteration order is supplied separately by an oracle). -/
def setInsert (x : α) (l : List α) [DecidableEq α] : List α :=
  if x ∈ l then l else l ++ [x]

/-- From node.rs: `SocketCollection` — the author-facing socket
registry.  `uniques : HashMap<SocketId, HashSet<SocketId>>` and
`compatibles : HashMap<SocketId, Vec<SocketId>>` are embedded as total
functions to lists; a missing key maps to the empty list, matching the
`entry(..).or_insert(empty)` access pattern of the Rust code. -/
structure SocketCollection where
  incremental_socket_index : Nat
  uniques : SocketId → List SocketId
  compatibles : SocketId → List SocketId

namespace SocketCollection

/-- From node.rs: `SocketCollection::new`. -/
def new : SocketCollection :=
  ⟨0, fun _ => [], fun _ => []⟩

/-- From node.rs: `SocketCollection::create` — returns the new socket
and the updated collection (Rust mutates `self` and returns the
socket).  The Rust counter is a `u32` incremented with `+= 1`; the
embedding wraps at `2^32` as release-mode Rust does. -/
def create (self : SocketCollection) : Socket × SocketCollection :=
  (Socket.new self.incremental_socket_index,
   { self with
      incremental_socket_index := (self.incremental_socket_index + 1) % 2 ^ 32 })

/-- From node.rs: `SocketCollection::register_connection_half` —
inserts `to_.id` into `uniques[from.id]`; if it was not already present,
pushes it onto `compatibles[from.id]`. -/
def register_connection_half (self : SocketCollection) (from_ to_ : Socket) :
    SocketCollection :=
  if to_.id ∈ self.uniques from_.id then self
  else
    { self with
        uniques := fun k =>
          if k = from_.id then self.uniques from_.id ++ [to_.id] else self.uniques k,
        compatibles := fun k =>
          if k = from_.id then self.compatibles from_.id ++ [to_.id]
          else self.compatibles k }

/-- From node.rs: `SocketCollection::register_connection` — both
halves. -/
def register_connection (self : SocketCollection) (from_ to_ : Socket) :
    SocketCollection :=
  (self.register_connection_half from_ to_).register_connection_half to_ from_

/-- From node.rs: `SocketCollection::add_connection`. -/
def add_connection (self : SocketCollection) (from_ : Socket) (to_ : List Socket) :
    SocketCollection :=
  to_.foldl (fun acc to_socket => acc.register_connection from_ to_socket) self

/-- From node.rs: `SocketCollection::add_connections`. -/
def add_connections (self : SocketCollection)
    (connections : List (Socket × List Socket)) : SocketCollection :=
  connections.foldl
    (fun acc c => c.2.foldl (fun acc t => acc.register_connection c.1 t) acc) self

/-- From node.rs: `SocketCollection::add_rotated_connection`. -/
def add_rotated_connection (self : SocketCollection) (from_ : Socket)
    (to_ : List Socket) : SocketCollection :=
  ALL_NODE_ROTATIONS.foldl
    (fun acc to_rotation =>
      let to_rotated_sockets := to_.map (fun s => s.rotated to_rotation)
      ALL_NODE_ROTATIONS.foldl
        (fun acc from_rot =>
          let rotated_socket := from_.rotated from_rot
          to_rotated_sockets.foldl
            (fun acc to_socket => acc.register_connection rotated_socket to_socket)
            acc)
        acc)
    self

/-- From node.rs: `SocketCollection::add_constrained_rotated_connection`
— note the Rust code mutates `delta_rotations` in place
(`*from_rotation = from_rotation.next()`), so the delta list carried
across outer iterations advances by a quarter turn each pass. -/
def add_constrained_rotated_connection (self : SocketCollection) (from_ : Socket)
    (delta_rotations : List NodeRotation) (to_ : List Socket) : SocketCollection :=
  (ALL_NODE_ROTATIONS.foldl
    (fun (acc : SocketCollection × List NodeRotation) to_rotation =>
      let to_rotated_sockets := to_.map (fun s => s.rotated to_rotation)
      let col := acc.2.foldl
        (fun (inner : SocketCollection × List NodeRotation) from_rotation =>
          let from_rotated_socket := from_.rotated from_rotation
          let col := to_rotated_sockets.foldl
            (fun c to_socket => c.register_connection from_rotated_socket to_socket)
            inner.1
          (col, inner.2 ++ [from_rotation.next]))
        (acc.1, [])
      col)
    (self, delta_rotations)).1

/-- From node.rs: `SocketCollection::get_compatibles` (with the
missing-key case folded into the empty list, as the total-function
embedding of the `HashMap` prescribes). -/
def get_compatibles (self : SocketCollection) (socket : SocketId) : List SocketId :=
  self.compatibles socket

/-- From node.rs: `SocketCollection::is_empty`. -/
def is_empty (self : SocketCollection) : Bool :=
  self.incremental_socket_index = 0

end SocketCollection

instance : Inhabited Direction := ⟨Direction.XForward⟩

instance : Inhabited NodeRotation := ⟨NodeRotation.Rot0⟩

/-- Rust `slice::rotate_right(mid)` (for `mid <= len`): the last `mid`
elements move to the front. -/
def listRotateRight (l : List α) (n : Nat) : List α :=
  l.drop (l.length - n) ++ l.take (l.length - n)

/-- From node.rs: `NodeModel` — an authored model.  The `typestate`
phantom marker is dropped; `allowed_rotations : HashSet<NodeRotation>`
is embedded as a list observed only through membership; `weight : f32`
as `ℚ`; `name : Option<&'static str>` as `Option String`. -/
structure NodeModel where
  sockets : List (List Socket)
  weight : ℚ
  allowed_rotations : List NodeRotation
  name : Option String

/-- From node.rs: `SocketsCartesian2D` — sockets for a model used in a
2D cartesian grid. -/
inductive SocketsCartesian2D where
  | Mono (socket : Socket)
  | Simple (x_pos x_neg y_pos y_neg : Socket)
  | Multiple (x_pos x_neg y_pos y_neg : List Socket)

/-- From node.rs: `impl Into<Vec<Vec<Socket>>> for SocketsCartesian2D`. -/
def SocketsCartesian2D.into : SocketsCartesian2D → List (List Socket)
  | .Mono socket => List.replicate 4 [socket]
  | .Simple x_pos x_neg y_pos y_neg => [[x_pos], [y_pos], [x_neg], [y_neg]]
  | .Multiple x_pos x_neg y_pos y_neg => [x_pos, y_pos, x_neg, y_neg]

/-- From node.rs: `SocketsCartesian3D`. -/
inductive SocketsCartesian3D where
  | Mono (socket : Socket)
  | Simple (x_pos x_neg z_pos z_neg y_pos y_neg : Socket)
  | Multiple (x_pos x_neg z_pos z_neg y_pos y_neg : List Socket)

/-- From node.rs: `impl Into<Vec<Vec<Socket>>> for SocketsCartesian3D`. -/
def SocketsCartesian3D.into : SocketsCartesian3D → List (List Socket)
  | .Mono socket => List.replicate 6 [socket]
  | .Simple x_pos x_neg z_pos z_neg y_pos y_neg =>
      [[x_pos], [y_pos], [x_neg], [y_neg], [z_pos], [z_neg]]
  | .Multiple x_pos x_neg z_pos z_neg y_pos y_neg =>
      [x_pos, y_pos, x_neg, y_neg, z_pos, z_neg]

namespace NodeModel

/-- From node.rs: `NodeModel::new_cartesian_2d` — default weight 1.0,
allowed rotations `{Rot0}`, no name. -/
def new_cartesian_2d (sockets : SocketsCartesian2D) : NodeModel :=
  { sockets := sockets.into
    allowed_rotations := [NodeRotation.Rot0]
    weight := 1
    name := none }

/-- From node.rs: `NodeModel::new_cartesian_3d`. -/
def new_cartesian_3d (sockets : SocketsCartesian3D) : NodeModel :=
  { sockets := sockets.into
    allowed_rotations := [NodeRotation.Rot0]
    weight := 1
    name := none }

/-- From node.rs: `NodeModel::with_rotation` —
`allowed_rotations = HashSet::from([Rot0, rotation])`. -/
def with_rotation (self : NodeModel) (rotation : NodeRotation) : NodeModel :=
  { self with allowed_rotations := setInsert rotation [NodeRotation.Rot0] }

/-- From node.rs: `NodeModel::with_rotations` —
`allowed_rotations = rotations.into(); allowed_rotations.insert(Rot0)`.
(`HashSet` is observed through membership only, so the incoming list is
kept as is and `Rot0` inserted.) -/
def with_rotations (self : NodeModel) (rotations : List NodeRotation) : NodeModel :=
  { self with allowed_rotations := setInsert NodeRotation.Rot0 rotations }

/-- From node.rs: `NodeModel::with_all_rotations`. -/
def with_all_rotations (self : NodeModel) : NodeModel :=
  { self with allowed_rotations := ALL_NODE_ROTATIONS }

/-- From node.rs: `NodeModel::with_no_rotations`. -/
def with_no_rotations (self : NodeModel) : NodeModel :=
  { self with allowed_rotations := [NodeRotation.Rot0] }

/-- From node.rs: `NodeModel::with_weight`. -/
def with_weight (self : NodeModel) (weight : ℚ) : NodeModel :=
  { self with weight := weight }

/-- From node.rs: `NodeModel::rotated_sockets` — rotates the
per-direction socket lists by `rotation` around `rot_axis`.  Vec reads
`v[i]` are embedded as `getD i []`, writes as `List.set` (the Rust
indices stay in bounds for the socket layouts the library constructs,
which the theorems' length hypotheses reflect). -/
def rotated_sockets (self : NodeModel) (rotation : NodeRotation)
    (rot_axis : Direction) : List (List Socket) :=
  let init : List (List Socket) := List.replicate self.sockets.length []
  let withAxis :=
    if self.sockets.length > rot_axis.toIndex then
      [rot_axis, rot_axis.opposite].foldl
        (fun acc fixed_axis =>
          acc.set fixed_axis.toIndex
            ((acc.getD fixed_axis.toIndex [] ++ self.sockets.getD fixed_axis.toIndex []).map
              (fun s => s.rotated rotation)))
        init
    else init
  let basis := rot_axis.rotation_basis
  let rotated_basis := listRotateRight basis rotation.index
  (List.range basis.length).foldl
    (fun acc i =>
      acc.set (basis.getD i default).toIndex
        (acc.getD (basis.getD i default).toIndex [] ++
          self.sockets.getD (rotated_basis.getD i default).toIndex []))
    withAxis

/-- From node.rs: `NodeModel::<Cartesian2D>::rotated` — a clone with
sockets rotated around `CARTESIAN_2D_ROTATION_AXIS`. -/
def rotated (self : NodeModel) (rotation : NodeRotation) : NodeModel :=
  { self with sockets := self.rotated_sockets rotation CARTESIAN_2D_ROTATION_AXIS }

/-- From node.rs: `NodeModel::<Cartesian3D>::rotated` — a clone with
sockets rotated around `axis`. -/
def rotated_3d (self : NodeModel) (rotation : NodeRotation) (axis : Direction) :
    NodeModel :=
  { self with sockets := self.rotated_sockets rotation axis }

end NodeModel

/-- From node.rs: `ModelIndex`. -/
abbrev ModelIndex := Nat

/-- From node.rs: `ExpandedNodeModel` — a compiled model variant. -/
structure ExpandedNodeModel where
  sockets : List (List SocketId)
  weight : ℚ
  original_index : ModelIndex
  rotation : NodeRotation
deriving DecidableEq, Repr

instance : Inhabited ExpandedNodeModel :=
  ⟨⟨[], 0, 0, NodeRotation.Rot0⟩⟩

/-- From node.rs: `expand_models` — for each model in declaration
order, for each rotation of `ALL_NODE_ROTATIONS` allowed by the model,
push one variant with the rotated socket-id lists, the model's weight,
the model's declaration index and the rotation. -/
def expand_models (models : List NodeModel) (rotation_axis : Direction) :
    List ExpandedNodeModel :=
  models.enum.foldl
    (fun expanded im =>
      ALL_NODE_ROTATIONS.foldl
        (fun expanded rotation =>
          if rotation ∈ im.2.allowed_rotations then
            expanded ++
              [{ sockets := (im.2.rotated_sockets rotation rotation_axis).map
                    (fun dir => dir.map Socket.id)
                 weight := im.2.weight
                 original_index := im.1
                 rotation := rotation }]
          else expanded)
        expanded)
    []

/-! ## The adjacency-table construction of rules.rs

`Rules::new` (src/generator/rules.rs) builds, from the expanded models,
first the inverse map `sockets_to_models` (socket → per-direction
`HashSet` of variant indices) and then the per-variant, per-direction
adjacency lists `allowed_neighbours`.  The Rust code iterates the
per-socket `HashSet`s when materializing the lists; that iteration
order is the `perm` oracle below.  Variant indices are the positions
in the expanded model list (the Rust `model.index()`). -/

/-- From rules.rs (`Rules::new`, first loop body): insert one model's
sockets into the inverse map — for every direction `d` of the set and
every socket on face `d`, add the variant index to the entry at
`opposite(d)`. -/
def stmAddModel (dirs : List Direction) (acc : SocketId → Nat → List ModelIndex)
    (i : ModelIndex) (m : ExpandedNodeModel) : SocketId → Nat → List ModelIndex :=
  dirs.foldl
    (fun acc direction =>
      (m.sockets.getD direction.toIndex []).foldl
        (fun acc socket => fun s d =>
          if s = socket ∧ d = direction.opposite.toIndex then setInsert i (acc s d)
          else acc s d)
        acc)
    acc

/-- From rules.rs (`Rules::new`, first loop): the inverse map
`sockets_to_models`.  `sockets_to_models s d` holds the indices of the
variants that can sit in direction `d` of a variant showing socket `s`
(i.e. the variants carrying `s` on face `opposite(d)`). -/
def sockets_to_models (dirs : List Direction) (expanded : List ExpandedNodeModel) :
    SocketId → Nat → List ModelIndex :=
  expanded.enum.foldl (fun acc im => stmAddModel dirs acc im.1 im.2) (fun _ _ => [])

/-- From rules.rs (`Rules::new`, second loop body): one step of the
deduplicated push — `unique_models.insert` guards the push onto the
adjacency list.  The accumulator pairs the `unique_models` set (first
component) with the pushed list (second component). -/
def dedupPush (acc : List ModelIndex × List ModelIndex) (allowed_model : ModelIndex) :
    List ModelIndex × List ModelIndex :=
  if allowed_model ∈ acc.1 then acc
  else (acc.1 ++ [allowed_model], acc.2 ++ [allowed_model])

/-- From rules.rs (`Rules::new`, second loop): the adjacency list
`allowed_neighbours[(v, direction)]`.  Walks the variant's own sockets
on face `direction` in declared order and, for each, the inverse-map
entry at `direction` in the `HashSet` iteration order chosen by the
`perm` oracle, pushing each candidate iff not already present. -/
def allowed_neighbours_at (dirs : List Direction)
    (expanded : List ExpandedNodeModel)
    (perm : List ModelIndex → List ModelIndex)
    (v : ModelIndex) (direction : Direction) : List ModelIndex :=
  let stm := sockets_to_models dirs expanded
  (((expanded.getD v default).sockets.getD direction.toIndex []).foldl
      (fun acc socket =>
        (perm (stm socket direction.toIndex)).foldl dedupPush acc)
      ([], [])).2

/-- From rules.rs: the `Rules` record (weights and models kept for the
accessors; the adjacency table as a function of variant index and
direction). -/
structure Rules where
  dirs : List Direction
  models : List ExpandedNodeModel
  allowed_neighbours : ModelIndex → Direction → List ModelIndex

/-- From rules.rs: `Rules::new` — expansion followed by the two-pass
adjacency construction, under the iteration-order oracle `perm`. -/
def Rules.new (models : List NodeModel) (dirs : List Direction)
    (rotation_axis : Direction) (perm : List ModelIndex → List ModelIndex) : Rules :=
  let expanded := expand_models models rotation_axis
  { dirs := dirs
    models := expanded
    allowed_neighbours := allowed_neighbours_at dirs expanded perm }

/-- From rules.rs: `Rules::supported_models`. -/
def Rules.supported_models (self : Rules) (model_index : ModelIndex)
    (direction : Direction) : List ModelIndex :=
  self.allowed_neighbours model_index direction

/-- From rules.rs: `Rules::weight`. -/
def Rules.weight (self : Rules) (model_index : ModelIndex) : ℚ :=
  (self.models.getD model_index default).weight

/-- From rules.rs: `Rules.models_count`. -/
def Rules.models_count (self : Rules) : Nat :=
  self.models.length

/-- The socket-id list a variant shows on a face: variant `v`'s sockets
in direction `d` (empty beyond the table, as the `getD` embedding of
the Rust indexing prescribes). -/
def modelSockets (expanded : List ExpandedNodeModel) (v : ModelIndex)
    (d : Direction) : List SocketId :=
  (expanded.getD v default).sockets.getD d.toIndex []

/-- Modelled from the spec: the adjacency materialization of the
compat-based rule compiler.  The `ghx_proc_gen` crate's `Rules::new`,
which consumes a `SocketCollection` and queries `get_compatibles`, is
not among the available sources (only the older socket-equality
`Rules::new` of src/generator/rules.rs is); per the spec, for a variant
`v` and direction `d` the compiler walks `v`'s sockets on face `d` in
declared order, for each socket `s` walks `compat[s]` in insertion
order, for each compatible socket walks the inverse-map entry at `d`,
and appends each candidate variant iff not already present (tracked by
a hash set). -/
def compat_allowed_neighbours_at (dirs : List Direction)
    (collection : SocketCollection) (expanded : List ExpandedNodeModel)
    (v : ModelIndex) (direction : Direction) : List ModelIndex :=
  let stm := sockets_to_models dirs expanded
  (((expanded.getD v default).sockets.getD direction.toIndex []).foldl
      (fun acc socket =>
        (collection.get_compatibles socket).foldl
          (fun acc compatible_socket =>
            (stm compatible_socket direction.toIndex).foldl dedupPush acc)
          acc)
      ([], [])).2

/-- Modelled from the spec: the authoring-error vocabulary of rule
compilation (`RuleBuildError`); only the `EmptyRuleSet` case is needed
here. -/
inductive RulesError where
  | EmptyRuleSet
deriving DecidableEq, Repr

/-- Modelled from the spec: the checked, compat-based rule compilation
of the builder path (not among the available sources).  Expansion runs
first; `EmptyRuleSet` is returned iff zero variants were produced, so
that no generator is constructed in that case; otherwise the compiled
rules are returned. -/
def rules_new_checked (models : List NodeModel) (collection : SocketCollection)
    (dirs : List Direction) (rotation_axis : Direction) :
    Except RulesError Rules :=
  let expanded := expand_models models rotation_axis
  if expanded.isEmpty then .error .EmptyRuleSet
  else .ok
    { dirs := dirs
      models := expanded
      allowed_neighbours := compat_allowed_neighbours_at dirs collection expanded }

/-! ## Basic facts -/

theorem mem_setInsert [DecidableEq α] (x y : α) (l : List α) :
    x ∈ setInsert y l ↔ x ∈ l ∨ x = y := by
  unfold setInsert
  split
  · rename_i hy
    constructor
    · exact Or.inl
    · rintro (h | rfl) <;> [exact h; exact hy]
  · simp

theorem Direction.opposite_opposite (d : Direction) : d.opposite.opposite = d := by
  cases d <;> rfl

theorem Direction.toIndex_inj {a b : Direction} (h : a.toIndex = b.toIndex) :
    a = b := by
  cases a <;> cases b <;> first | rfl | simp [Direction.toIndex] at h

/-! ## Membership in the inverse map `sockets_to_models` -/

theorem stmSockFold_mem (socks : List SocketId) (i : ModelIndex) (eIdx : Nat)
    (acc : SocketId → Nat → List ModelIndex) (x : ModelIndex) (s : SocketId)
    (d : Nat) :
    x ∈ (socks.foldl
          (fun acc socket => fun s' d' =>
            if s' = socket ∧ d' = eIdx then setInsert i (acc s' d') else acc s' d')
          acc) s d ↔
      x ∈ acc s d ∨ (x = i ∧ d = eIdx ∧ s ∈ socks) := by
  induction socks generalizing acc with
  | nil => simp
  | cons h t ih =>
      rw [List.foldl_cons, ih]
      by_cases hs : s = h ∧ d = eIdx
      · simp only [hs, and_self, if_pos, mem_setInsert, List.mem_cons]
        obtain ⟨rfl, rfl⟩ := hs
        tauto
      · rw [if_neg hs, List.mem_cons]
        constructor
        · rintro (h1 | ⟨rfl, rfl, h3⟩)
          · exact Or.inl h1
          · exact Or.inr ⟨rfl, rfl, Or.inr h3⟩
        · rintro (h1 | ⟨rfl, rfl, (rfl | h3)⟩)
          · exact Or.inl h1
          · exact absurd ⟨rfl, rfl⟩ hs
          · exact Or.inr ⟨rfl, rfl, h3⟩

theorem stmAddModel_mem (dirs : List Direction)
    (acc : SocketId → Nat → List ModelIndex) (i : ModelIndex)
    (m : ExpandedNodeModel) (x : ModelIndex) (s : SocketId) (d : Nat) :
    x ∈ stmAddModel dirs acc i m s d ↔
      x ∈ acc s d ∨
        (x = i ∧ ∃ e ∈ dirs, d = e.opposite.toIndex ∧
          s ∈ m.sockets.getD e.toIndex []) := by
  induction dirs generalizing acc with
  | nil => simp [stmAddModel]
  | cons e es ih =>
      rw [stmAddModel, List.foldl_cons, ← stmAddModel, ih, stmSockFold_mem]
      simp only [List.mem_cons]
      constructor
      · rintro ((h1 | ⟨rfl, rfl, h3⟩) | ⟨rfl, e', he', rfl, h3⟩)
        · exact Or.inl h1
        · exact Or.inr ⟨rfl, e, Or.inl rfl, rfl, h3⟩
        · exact Or.inr ⟨rfl, e', Or.inr he', rfl, h3⟩
      · rintro (h1 | ⟨rfl, e', (rfl | he'), rfl, h3⟩)
        · exact Or.inl (Or.inl h1)
        · exact Or.inl (Or.inr ⟨rfl, rfl, h3⟩)
        · exact Or.inr ⟨rfl, e', he', rfl, h3⟩

theorem stm_fold_mem (dirs : List Direction)
    (l : List (Nat × ExpandedNodeModel))
    (acc : SocketId → Nat → List ModelIndex) (x : ModelIndex) (s : SocketId)
    (d : Nat) :
    x ∈ (l.foldl (fun acc im => stmAddModel dirs acc im.1 im.2) acc) s d ↔
      x ∈ acc s d ∨
        ∃ im ∈ l, x = im.1 ∧ ∃ e ∈ dirs, d = e.opposite.toIndex ∧
          s ∈ im.2.sockets.getD e.toIndex [] := by
  induction l generalizing acc with
  | nil => simp
  | cons p t ih =>
      rw [List.foldl_cons, ih, stmAddModel_mem]
      simp only [List.mem_cons]
      constructor
      · rintro ((h1 | ⟨rfl, hrest⟩) | ⟨im, him, hrest⟩)
        · exact Or.inl h1
        · exact Or.inr ⟨p, Or.inl rfl, rfl, hrest⟩
        · exact Or.inr ⟨im, Or.inr him, hrest⟩
      · rintro (h1 | ⟨im, (rfl | him), hrest⟩)
        · exact Or.inl (Or.inl h1)
        · exact Or.inl (Or.inr hrest)
        · exact Or.inr ⟨im, him, hrest⟩

theorem sockets_to_models_mem (dirs : List Direction)
    (expanded : List ExpandedNodeModel) (x : ModelIndex) (s : SocketId)
    (d : Nat) :
    x ∈ sockets_to_models dirs expanded s d ↔
      x < expanded.length ∧
        ∃ e ∈ dirs, d = e.opposite.toIndex ∧ s ∈ modelSockets expanded x e := by
  rw [sockets_to_models, stm_fold_mem]
  simp only [List.mem_singleton, List.not_mem_nil, false_or]
  constructor
  · rintro ⟨⟨i, m⟩, him, rfl, e, he, rfl, hs⟩
    rw [List.mk_mem_enum_iff_getElem?] at him
    have hlt := (List.getElem?_eq_some.mp him).1
    have hm : expanded.getD x default = m := by
      rw [List.getD_eq_getElem?_getD, him]
      rfl
    refine ⟨hlt, e, he, rfl, ?_⟩
    rw [modelSockets, hm]
    exact hs
  · rintro ⟨hlt, e, he, rfl, hs⟩
    have hm : expanded.getD x default = expanded[x] := by
      rw [List.getD_eq_getElem?_getD, List.getElem?_eq_getElem hlt]
      rfl
    refine ⟨(x, expanded.getD x default), ?_, rfl, e, he, rfl, hs⟩
    rw [List.mk_mem_enum_iff_getElem?, List.getElem?_eq_getElem hlt, hm]

/-! ## The deduplicated-push folds of the second loop -/

/-- Specification of a `dedupPush` fold over one candidate list: the
`unique_models` component mirrors the pushed list, the pushed list
stays duplicate-free, and its members are the old members plus the
candidates. -/
theorem dedupPush_foldl_spec (c : List ModelIndex)
    (acc : List ModelIndex × List ModelIndex)
    (h1 : ∀ y, y ∈ acc.1 ↔ y ∈ acc.2) (h2 : acc.2.Nodup) :
    (∀ y, y ∈ (c.foldl dedupPush acc).1 ↔ y ∈ (c.foldl dedupPush acc).2) ∧
      (c.foldl dedupPush acc).2.Nodup ∧
      (∀ y, y ∈ (c.foldl dedupPush acc).2 ↔ y ∈ acc.2 ∨ y ∈ c) := by
  induction c generalizing acc with
  | nil => exact ⟨h1, h2, fun y => by simp⟩
  | cons h t ih =>
      rw [List.foldl_cons]
      by_cases hmem : h ∈ acc.1
      · rw [dedupPush, if_pos hmem]
        obtain ⟨k1, k2, k3⟩ := ih acc h1 h2
        refine ⟨k1, k2, fun y => ?_⟩
        rw [k3, List.mem_cons]
        constructor
        · rintro (hy | hy)
          · exact Or.inl hy
          · exact Or.inr (Or.inr hy)
        · rintro (hy | rfl | hy)
          · exact Or.inl hy
          · exact Or.inl ((h1 y).mp hmem)
          · exact Or.inr hy
      · rw [dedupPush, if_neg hmem]
        have h1' : ∀ y, y ∈ acc.1 ++ [h] ↔ y ∈ acc.2 ++ [h] := by
          intro y
          simp only [List.mem_append, List.mem_singleton, h1]
        have h2' : (acc.2 ++ [h]).Nodup := by
          rw [List.nodup_append]
          refine ⟨h2, List.nodup_singleton h, ?_⟩
          intro a ha hb
          rw [List.mem_singleton] at hb
          subst hb
          exact hmem ((h1 a).mpr ha)
        obtain ⟨k1, k2, k3⟩ := ih (acc.1 ++ [h], acc.2 ++ [h]) h1' h2'
        refine ⟨k1, k2, fun y => ?_⟩
        rw [k3]
        simp only [List.mem_append, List.mem_singleton, List.mem_cons]
        tauto

/-- Specification of the nested fold that walks an outer list `L` and,
per element, folds `dedupPush` over its candidate list. -/
theorem nested_dedup_spec {β : Type} (L : List β) (cand : β → List ModelIndex)
    (acc : List ModelIndex × List ModelIndex)
    (h1 : ∀ y, y ∈ acc.1 ↔ y ∈ acc.2) (h2 : acc.2.Nodup) :
    (∀ y, y ∈ (L.foldl (fun acc b => (cand b).foldl dedupPush acc) acc).1 ↔
        y ∈ (L.foldl (fun acc b => (cand b).foldl dedupPush acc) acc).2) ∧
      (L.foldl (fun acc b => (cand b).foldl dedupPush acc) acc).2.Nodup ∧
      (∀ y, y ∈ (L.foldl (fun acc b => (cand b).foldl dedupPush acc) acc).2 ↔
        y ∈ acc.2 ∨ ∃ b ∈ L, y ∈ cand b) := by
  induction L generalizing acc with
  | nil => exact ⟨h1, h2, fun y => by simp⟩
  | cons b bs ih =>
      rw [List.foldl_cons]
      obtain ⟨k1, k2, k3⟩ := dedupPush_foldl_spec (cand b) acc h1 h2
      obtain ⟨j1, j2, j3⟩ := ih ((cand b).foldl dedupPush acc) k1 k2
      refine ⟨j1, j2, fun y => ?_⟩
      rw [j3, k3]
      simp only [List.mem_cons]
      constructor
      · rintro ((hy | hy) | ⟨b', hb', hy⟩)
        · exact Or.inl hy
        · exact Or.inr ⟨b, Or.inl rfl, hy⟩
        · exact Or.inr ⟨b', Or.inr hb', hy⟩
      · rintro (hy | ⟨b', (rfl | hb'), hy⟩)
        · exact Or.inl (Or.inl hy)
        · exact Or.inl (Or.inr hy)
        · exact Or.inr ⟨b', hb', hy⟩

/-- Specification of the doubly nested `dedupPush` fold (outer list,
middle candidate-list-of-lists, inner fold). -/
theorem nested2_dedup_spec {β γ : Type} (L : List β) (mid : β → List γ)
    (cand : β → γ → List ModelIndex)
    (acc : List ModelIndex × List ModelIndex)
    (h1 : ∀ y, y ∈ acc.1 ↔ y ∈ acc.2) (h2 : acc.2.Nodup) :
    (∀ y,
        y ∈ (L.foldl (fun acc b =>
              (mid b).foldl (fun acc g => (cand b g).foldl dedupPush acc) acc) acc).1 ↔
        y ∈ (L.foldl (fun acc b =>
              (mid b).foldl (fun acc g => (cand b g).foldl dedupPush acc) acc) acc).2) ∧
      (L.foldl (fun acc b =>
          (mid b).foldl (fun acc g => (cand b g).foldl dedupPush acc) acc) acc).2.Nodup ∧
      (∀ y,
        y ∈ (L.foldl (fun acc b =>
              (mid b).foldl (fun acc g => (cand b g).foldl dedupPush acc) acc) acc).2 ↔
        y ∈ acc.2 ∨ ∃ b ∈ L, ∃ g ∈ mid b, y ∈ cand b g) := by
  induction L generalizing acc with
  | nil => exact ⟨h1, h2, fun y => by simp⟩
  | cons b bs ih =>
      rw [List.foldl_cons]
      obtain ⟨k1, k2, k3⟩ := nested_dedup_spec (mid b) (cand b) acc h1 h2
      obtain ⟨j1, j2, j3⟩ :=
        ih ((mid b).foldl (fun acc g => (cand b g).foldl dedupPush acc) acc) k1 k2
      refine ⟨j1, j2, fun y => ?_⟩
      rw [j3, k3]
      simp only [List.mem_cons]
      constructor
      · rintro ((hy | hy) | ⟨b', hb', hy⟩)
        · exact Or.inl hy
        · exact Or.inr ⟨b, Or.inl rfl, hy⟩
        · exact Or.inr ⟨b', Or.inr hb', hy⟩
      · rintro (hy | ⟨b', (rfl | hb'), hy⟩)
        · exact Or.inl (Or.inl hy)
        · exact Or.inl (Or.inr hy)
        · exact Or.inr ⟨b', hb', hy⟩

/-! ## Characterizing the adjacency lists -/

theorem allowed_neighbours_at_mem (dirs : List Direction)
    (expanded : List ExpandedNodeModel)
    (perm : List ModelIndex → List ModelIndex)
    (hperm : ∀ l, (perm l).Perm l) (v : ModelIndex) (d : Direction)
    (y : ModelIndex) :
    y ∈ allowed_neighbours_at dirs expanded perm v d ↔
      ∃ s ∈ modelSockets expanded v d,
        y ∈ sockets_to_models dirs expanded s d.toIndex := by
  unfold allowed_neighbours_at
  obtain ⟨-, -, k3⟩ := nested_dedup_spec
    ((expanded.getD v default).sockets.getD d.toIndex [])
    (fun socket => perm (sockets_to_models dirs expanded socket d.toIndex))
    ([], []) (fun y => Iff.rfl) List.nodup_nil
  rw [k3]
  simp only [List.not_mem_nil, false_or, modelSockets]
  constructor
  · rintro ⟨s, hs, hy⟩
    exact ⟨s, hs, (hperm _).mem_iff.mp hy⟩
  · rintro ⟨s, hs, hy⟩
    exact ⟨s, hs, (hperm _).mem_iff.mpr hy⟩

theorem allowed_neighbours_at_nodup (dirs : List Direction)
    (expanded : List ExpandedNodeModel)
    (perm : List ModelIndex → List ModelIndex) (v : ModelIndex)
    (d : Direction) :
    (allowed_neighbours_at dirs expanded perm v d).Nodup := by
  unfold allowed_neighbours_at
  exact (nested_dedup_spec _ _ ([], []) (fun y => Iff.rfl) List.nodup_nil).2.1

theorem compat_allowed_neighbours_at_mem (dirs : List Direction)
    (collection : SocketCollection) (expanded : List ExpandedNodeModel)
    (v : ModelIndex) (d : Direction) (y : ModelIndex) :
    y ∈ compat_allowed_neighbours_at dirs collection expanded v d ↔
      ∃ s ∈ modelSockets expanded v d,
        ∃ s2 ∈ collection.get_compatibles s,
          y ∈ sockets_to_models dirs expanded s2 d.toIndex := by
  unfold compat_allowed_neighbours_at
  obtain ⟨-, -, k3⟩ := nested2_dedup_spec
    ((expanded.getD v default).sockets.getD d.toIndex [])
    (fun socket => collection.get_compatibles socket)
    (fun _ cs => sockets_to_models dirs expanded cs d.toIndex)
    ([], []) (fun y => Iff.rfl) List.nodup_nil
  rw [k3]
  simp only [List.not_mem_nil, false_or, modelSockets]

theorem modelSockets_out_of_range (expanded : List ExpandedNodeModel)
    (v : ModelIndex) (d : Direction) (h : ¬ v < expanded.length) :
    modelSockets expanded v d = [] := by
  have hd : expanded.getD v default = default := by
    rw [List.getD_eq_getElem?_getD, List.getElem?_eq_none (Nat.le_of_not_lt h)]
    rfl
  unfold modelSockets
  rw [hd]
  cases d <;> rfl

theorem mem_modelSockets_lt (expanded : List ExpandedNodeModel)
    (v : ModelIndex) (d : Direction) (s : SocketId)
    (h : s ∈ modelSockets expanded v d) : v < expanded.length := by
  by_contra hv
  rw [modelSockets_out_of_range expanded v d hv] at h
  exact absurd h (List.not_mem_nil s)

/-- Membership in the inverse map, with the direction argument restated
through `Direction.opposite`. -/
theorem stm_mem_iff (dirs : List Direction) (expanded : List ExpandedNodeModel)
    (s : SocketId) (y : ModelIndex) (d : Direction) :
    y ∈ sockets_to_models dirs expanded s d.toIndex ↔
      y < expanded.length ∧ d.opposite ∈ dirs ∧
        s ∈ modelSockets expanded y d.opposite := by
  rw [sockets_to_models_mem]
  constructor
  · rintro ⟨hl, e, he, heq, hs⟩
    have he2 : d = e.opposite := Direction.toIndex_inj heq
    have he3 : e = d.opposite := by rw [he2, Direction.opposite_opposite]
    subst he3
    exact ⟨hl, he, hs⟩
  · rintro ⟨hl, hd, hs⟩
    refine ⟨hl, d.opposite, hd, ?_, hs⟩
    rw [Direction.opposite_opposite]

/-- Full membership characterization of the adjacency lists of
`Rules::new`. -/
theorem allowed_neighbours_mem_iff (dirs : List Direction)
    (expanded : List ExpandedNodeModel)
    (perm : List ModelIndex → List ModelIndex)
    (hperm : ∀ l, (perm l).Perm l) (v : ModelIndex) (d : Direction)
    (y : ModelIndex) :
    y ∈ allowed_neighbours_at dirs expanded perm v d ↔
      ∃ s, s ∈ modelSockets expanded v d ∧ y < expanded.length ∧
        d.opposite ∈ dirs ∧ s ∈ modelSockets expanded y d.opposite := by
  rw [allowed_neighbours_at_mem dirs expanded perm hperm]
  constructor
  · rintro ⟨s, hs, hy⟩
    rw [stm_mem_iff] at hy
    exact ⟨s, hs, hy⟩
  · rintro ⟨s, hs, hy⟩
    refine ⟨s, hs, ?_⟩
    rw [stm_mem_iff]
    exact hy

/-- C1: for every compiled rule set, the adjacency table is symmetric —
for all variants `v`, `v'` and every direction `d` of a direction set
closed under `opposite`, `v'` is in `support[v][d]` iff `v` is in
`support[v'][opposite(d)]`. -/
theorem claim1_support_symmetric (dirs : List Direction)
    (expanded : List ExpandedNodeModel)
    (perm : List ModelIndex → List ModelIndex)
    (hperm : ∀ l, (perm l).Perm l)
    (hcl : ∀ e ∈ dirs, e.opposite ∈ dirs)
    (v v' : ModelIndex) (d : Direction) (hd : d ∈ dirs) :
    v' ∈ allowed_neighbours_at dirs expanded perm v d ↔
      v ∈ allowed_neighbours_at dirs expanded perm v' d.opposite := by
  rw [allowed_neighbours_mem_iff dirs expanded perm hperm,
    allowed_neighbours_mem_iff dirs expanded perm hperm]
  constructor
  · rintro ⟨s, h1, -, -, h4⟩
    refine ⟨s, h4, mem_modelSockets_lt expanded v d s h1, ?_, ?_⟩
    · rw [Direction.opposite_opposite]
      exact hd
    · rw [Direction.opposite_opposite]
      exact h1
  · rintro ⟨s, h1, -, -, h4⟩
    rw [Direction.opposite_opposite] at h4
    exact ⟨s, h4, mem_modelSockets_lt expanded v' d.opposite s h1,
      hcl d hd, h1⟩

/-- C2: the compat-based adjacency — `support[v][d]` contains exactly
the variants `v'` for which some socket `s` on face `d` of `v` and some
socket `s'` on face `opposite(d)` of `v'` satisfy `s' ∈ compat[s]`. -/
theorem claim2_compat_support_mem (dirs : List Direction)
    (collection : SocketCollection) (expanded : List ExpandedNodeModel)
    (v : ModelIndex) (d : Direction) (hop : d.opposite ∈ dirs)
    (v' : ModelIndex) :
    v' ∈ compat_allowed_neighbours_at dirs collection expanded v d ↔
      ∃ s ∈ modelSockets expanded v d,
        ∃ s2, s2 ∈ collection.get_compatibles s ∧
          s2 ∈ modelSockets expanded v' d.opposite := by
  rw [compat_allowed_neighbours_at_mem]
  constructor
  · rintro ⟨s, hs, s2, hs2, hy⟩
    rw [stm_mem_iff] at hy
    exact ⟨s, hs, s2, hs2, hy.2.2⟩
  · rintro ⟨s, hs, s2, hs2, hy⟩
    refine ⟨s, hs, s2, hs2, ?_⟩
    rw [stm_mem_iff]
    exact ⟨mem_modelSockets_lt expanded v' d.opposite s2 hy, hop, hy⟩

/-- Two expanded variants showing socket id `0` on all four faces:
concrete input for the ordering counterexample and the witnesses. -/
def twoMonoVariants : List ExpandedNodeModel :=
  [⟨[[0], [0], [0], [0]], 1, 0, NodeRotation.Rot0⟩,
   ⟨[[0], [0], [0], [0]], 1, 1, NodeRotation.Rot0⟩]

/-- C5, counterexample: two valid `HashSet` iteration orders (identity
and reversal, both permutations of the per-socket model set `[0, 1]`)
yield adjacency lists differing element-for-element, so rule
compilation is not deterministic across runs as stated. -/
theorem claim5_counterexample :
    (List.reverse ([0, 1] : List ModelIndex)).Perm [0, 1] ∧
    sockets_to_models CARTESIAN_2D_DIRS twoMonoVariants 0
        Direction.XForward.toIndex = [0, 1] ∧
    allowed_neighbours_at CARTESIAN_2D_DIRS twoMonoVariants (fun l => l) 0
        Direction.XForward = [0, 1] ∧
    allowed_neighbours_at CARTESIAN_2D_DIRS twoMonoVariants List.reverse 0
        Direction.XForward = [1, 0] ∧
    allowed_neighbours_at CARTESIAN_2D_DIRS twoMonoVariants (fun l => l) 0
        Direction.XForward ≠
      allowed_neighbours_at CARTESIAN_2D_DIRS twoMonoVariants List.reverse 0
        Direction.XForward := by
  refine ⟨?_, ?_, ?_, ?_, ?_⟩ <;> decide

/-- C5, amended: under any two valid iteration orders for the internal
hash sets, the compiled adjacency lists agree as sets (and each list is
duplicate-free); only the element order depends on the hash-set
iteration order. -/
theorem claim5_support_deterministic_up_to_order (dirs : List Direction)
    (expanded : List ExpandedNodeModel)
    (perm1 perm2 : List ModelIndex → List ModelIndex)
    (h1 : ∀ l, (perm1 l).Perm l) (h2 : ∀ l, (perm2 l).Perm l)
    (v : ModelIndex) (d : Direction) (y : ModelIndex) :
    (allowed_neighbours_at dirs expanded perm1 v d).Nodup ∧
      (y ∈ allowed_neighbours_at dirs expanded perm1 v d ↔
        y ∈ allowed_neighbours_at dirs expanded perm2 v d) := by
  refine ⟨allowed_neighbours_at_nodup dirs expanded perm1 v d, ?_⟩
  rw [allowed_neighbours_at_mem dirs expanded perm1 h1,
    allowed_neighbours_at_mem dirs expanded perm2 h2]

/-! ## The symmetry invariant of `SocketCollection` -/

namespace SocketCollection

/-- The `uniques` sets mirror the `compatibles` lists (they receive
exactly the same insertions, guarded identically). -/
def UniquesMirror (sc : SocketCollection) : Prop :=
  ∀ k x, x ∈ sc.uniques k ↔ x ∈ sc.compatibles k

/-- The compatibility relation is symmetric. -/
def SymmetricCompat (sc : SocketCollection) : Prop :=
  ∀ a b, b ∈ sc.compatibles a ↔ a ∈ sc.compatibles b

/-- The invariant carried by every socket collection the API can
build. -/
def WellFormed (sc : SocketCollection) : Prop :=
  sc.UniquesMirror ∧ sc.SymmetricCompat

theorem half_uniques_mem (sc : SocketCollection) (f t : Socket)
    (k x : SocketId) :
    x ∈ (sc.register_connection_half f t).uniques k ↔
      x ∈ sc.uniques k ∨ (t.id ∉ sc.uniques f.id ∧ k = f.id ∧ x = t.id) := by
  unfold register_connection_half
  split
  · rename_i hin
    simp [hin]
  · rename_i hin
    by_cases hk : k = f.id
    · subst hk
      simp only [if_pos rfl, List.mem_append, List.mem_singleton,
        eq_self_iff_true, if_true, true_and]
      tauto
    · simp only [if_neg hk]
      tauto

theorem half_compat_mem (sc : SocketCollection) (f t : Socket)
    (k x : SocketId) :
    x ∈ (sc.register_connection_half f t).compatibles k ↔
      x ∈ sc.compatibles k ∨ (t.id ∉ sc.uniques f.id ∧ k = f.id ∧ x = t.id) := by
  unfold register_connection_half
  split
  · rename_i hin
    simp [hin]
  · rename_i hin
    by_cases hk : k = f.id
    · subst hk
      simp only [if_pos rfl, List.mem_append, List.mem_singleton,
        eq_self_iff_true, if_true, true_and]
      tauto
    · simp only [if_neg hk]
      tauto

theorem register_mirror (sc : SocketCollection) (f t : Socket)
    (hm : sc.UniquesMirror) : (sc.register_connection f t).UniquesMirror := by
  intro k x
  unfold register_connection
  rw [half_uniques_mem, half_compat_mem, half_uniques_mem, half_compat_mem,
    half_uniques_mem, hm k x]

theorem register_compat_mem (sc : SocketCollection) (f t : Socket)
    (hm : sc.UniquesMirror) (k x : SocketId) :
    x ∈ (sc.register_connection f t).compatibles k ↔
      x ∈ sc.compatibles k ∨ (k = f.id ∧ x = t.id) ∨ (k = t.id ∧ x = f.id) := by
  unfold register_connection
  rw [half_compat_mem, half_compat_mem, half_uniques_mem]
  constructor
  · rintro ((hx | ⟨-, rfl, rfl⟩) | ⟨-, rfl, rfl⟩)
    · exact Or.inl hx
    · exact Or.inr (Or.inl ⟨rfl, rfl⟩)
    · exact Or.inr (Or.inr ⟨rfl, rfl⟩)
  · rintro (hx | ⟨rfl, rfl⟩ | ⟨rfl, rfl⟩)
    · exact Or.inl (Or.inl hx)
    · by_cases hin : t.id ∈ sc.uniques f.id
      · exact Or.inl (Or.inl ((hm _ _).mp hin))
      · exact Or.inl (Or.inr ⟨hin, rfl, rfl⟩)
    · by_cases hin2 : f.id ∈ sc.uniques t.id
      · exact Or.inl (Or.inl ((hm _ _).mp hin2))
      · by_cases heq : t.id = f.id
        · by_cases hin : t.id ∈ sc.uniques f.id
          · refine Or.inl (Or.inl ?_)
            rw [heq]
            have := (hm _ _).mp hin
            rw [heq] at this
            exact this
          · refine Or.inl (Or.inr ⟨hin, ?_, ?_⟩) <;> rw [heq]
        · refine Or.inr ⟨?_, rfl, rfl⟩
          rintro (hin | ⟨-, h1, -⟩)
          · exact hin2 hin
          · exact heq h1

theorem register_wf (sc : SocketCollection) (f t : Socket)
    (h : sc.WellFormed) : (sc.register_connection f t).WellFormed := by
  obtain ⟨hm, hs⟩ := h
  refine ⟨register_mirror sc f t hm, fun a b => ?_⟩
  rw [register_compat_mem sc f t hm, register_compat_mem sc f t hm,
    hs a b]
  tauto

theorem foldl_register_wf {β : Type} (step : SocketCollection → β → SocketCollection)
    (hstep : ∀ sc b, sc.WellFormed → (step sc b).WellFormed)
    (l : List β) (sc : SocketCollection) (h : sc.WellFormed) :
    (l.foldl step sc).WellFormed := by
  induction l generalizing sc with
  | nil => exact h
  | cons b bs ih => exact ih (step sc b) (hstep sc b h)

theorem foldl_pair_register_wf {β γ : Type}
    (step : SocketCollection × γ → β → SocketCollection × γ)
    (hstep : ∀ acc b, acc.1.WellFormed → (step acc b).1.WellFormed)
    (l : List β) (acc : SocketCollection × γ) (h : acc.1.WellFormed) :
    ((l.foldl step acc).1).WellFormed := by
  induction l generalizing acc with
  | nil => exact h
  | cons b bs ih => exact ih (step acc b) (hstep acc b h)

/-- The socket collections producible through the public API: `new`
followed by any sequence of `create`, `add_connection`,
`add_connections`, `add_rotated_connection` and
`add_constrained_rotated_connection`. -/
inductive Reachable : SocketCollection → Prop where
  | new : Reachable SocketCollection.new
  | create (sc : SocketCollection) (h : Reachable sc) : Reachable (sc.create).2
  | add_connection (sc : SocketCollection) (f : Socket) (ts : List Socket)
      (h : Reachable sc) : Reachable (sc.add_connection f ts)
  | add_connections (sc : SocketCollection) (cs : List (Socket × List Socket))
      (h : Reachable sc) : Reachable (sc.add_connections cs)
  | add_rotated_connection (sc : SocketCollection) (f : Socket)
      (ts : List Socket) (h : Reachable sc) :
      Reachable (sc.add_rotated_connection f ts)
  | add_constrained_rotated_connection (sc : SocketCollection) (f : Socket)
      (ds : List NodeRotation) (ts : List Socket) (h : Reachable sc) :
      Reachable (sc.add_constrained_rotated_connection f ds ts)

theorem reachable_wf (sc : SocketCollection) (h : Reachable sc) :
    sc.WellFormed := by
  induction h with
  | new =>
      exact ⟨fun k x => Iff.rfl,
        fun a b => iff_of_false (List.not_mem_nil b) (List.not_mem_nil a)⟩
  | create sc h ih => exact ih
  | add_connection sc f ts h ih =>
      exact foldl_register_wf _ (fun sc b => register_wf sc f b) ts sc ih
  | add_connections sc cs h ih =>
      refine foldl_register_wf _ (fun sc c hw => ?_) cs sc ih
      exact foldl_register_wf _ (fun sc b => register_wf sc c.1 b) c.2 sc hw
  | add_rotated_connection sc f ts h ih =>
      refine foldl_register_wf _ (fun sc r1 hw => ?_) ALL_NODE_ROTATIONS sc ih
      refine foldl_register_wf _ (fun sc r2 hw2 => ?_) ALL_NODE_ROTATIONS sc hw
      exact foldl_register_wf _
        (fun sc b => register_wf sc (f.rotated r2) b) _ sc hw2
  | add_constrained_rotated_connection sc f ds ts h ih =>
      refine foldl_pair_register_wf _ (fun acc r1 hw => ?_) ALL_NODE_ROTATIONS
        (sc, ds) ih
      refine foldl_pair_register_wf _ (fun acc2 r2 hw2 => ?_) acc.2 (acc.1, []) hw
      exact foldl_register_wf _
        (fun sc b => register_wf sc (f.rotated r2) b) _ acc2.1 hw2

end SocketCollection

/-- C6: the socket collection's compatibility mapping is symmetric, and
the symmetry is preserved by every mutating operation — any collection
reachable through `new`, `create`, `add_connection`, `add_connections`,
`add_rotated_connection` and `add_constrained_rotated_connection`
satisfies `b ∈ compat[a] ↔ a ∈ compat[b]`. -/
theorem claim6_compat_symmetric (sc : SocketCollection)
    (h : SocketCollection.Reachable sc) (a b : SocketId) :
    b ∈ sc.compatibles a ↔ a ∈ sc.compatibles b :=
  (SocketCollection.reachable_wf sc h).2 a b

/-! ## Characterizing model expansion -/

theorem foldl_guard_append {β γ : Type} (L : List β) (p : β → Prop)
    [DecidablePred p] (g : β → γ) (init : List γ) :
    L.foldl (fun acc b => if p b then acc ++ [g b] else acc) init =
      init ++ (L.filter (fun b => decide (p b))).map g := by
  induction L generalizing init with
  | nil => simp
  | cons b bs ih =>
      rw [List.foldl_cons]
      by_cases hb : p b
      · rw [if_pos hb, ih]
        simp [hb, List.filter_cons]
      · rw [if_neg hb, ih]
        simp [hb, List.filter_cons]

/-- The variant pushed by `expand_models` for declaration index `i`,
model `m` and rotation `rotation`. -/
def expandedVariant (axis : Direction) (i : ModelIndex) (m : NodeModel)
    (rotation : NodeRotation) : ExpandedNodeModel :=
  { sockets := (m.rotated_sockets rotation axis).map (fun dir => dir.map Socket.id)
    weight := m.weight
    original_index := i
    rotation := rotation }

/-- The rotation-filtered variant group contributed by one model. -/
def variantGroup (axis : Direction) (i : ModelIndex) (m : NodeModel) :
    List ExpandedNodeModel :=
  (ALL_NODE_ROTATIONS.filter (fun r => decide (r ∈ m.allowed_rotations))).map
    (expandedVariant axis i m)

theorem expand_models_eq_bind (models : List NodeModel) (axis : Direction) :
    expand_models models axis =
      models.enum.flatMap (fun im => variantGroup axis im.1 im.2) := by
  unfold expand_models
  suffices h : ∀ (l : List (Nat × NodeModel)) (init : List ExpandedNodeModel),
      l.foldl
        (fun expanded im =>
          ALL_NODE_ROTATIONS.foldl
            (fun expanded rotation =>
              if rotation ∈ im.2.allowed_rotations then
                expanded ++
                  [{ sockets := (im.2.rotated_sockets rotation axis).map
                        (fun dir => dir.map Socket.id)
                     weight := im.2.weight
                     original_index := im.1
                     rotation := rotation }]
              else expanded)
            expanded)
        init =
        init ++ l.flatMap (fun im => variantGroup axis im.1 im.2) by
    rw [h models.enum []]
    rfl
  intro l
  induction l with
  | nil => simp
  | cons im ims ih =>
      intro init
      rw [List.foldl_cons,
        foldl_guard_append ALL_NODE_ROTATIONS
          (fun r => r ∈ im.2.allowed_rotations)
          (fun rotation =>
            { sockets := (im.2.rotated_sockets rotation axis).map
                  (fun dir => dir.map Socket.id)
              weight := im.2.weight
              original_index := im.1
              rotation := rotation })
          init,
        ih]
      rw [List.flatMap_cons, List.append_assoc]
      rfl

/-- C3: variant expansion walks the models in declaration order and,
for each, the fixed rotation order `[0°, 90°, 180°, 270°]` restricted
to the model's allowed rotations; the variants carry the source model's
weight and declaration index, their indices are contiguous in that
order, and the total count is the sum of the per-model allowed-rotation
counts. -/
theorem claim3_expansion (models : List NodeModel) (axis : Direction) :
    expand_models models axis =
      models.enum.flatMap (fun im =>
        (ALL_NODE_ROTATIONS.filter
            (fun r => decide (r ∈ im.2.allowed_rotations))).map
          (fun rotation =>
            { sockets := (im.2.rotated_sockets rotation axis).map
                  (fun dir => dir.map Socket.id)
              weight := im.2.weight
              original_index := im.1
              rotation := rotation })) ∧
    (expand_models models axis).length =
      (models.map (fun m =>
          (ALL_NODE_ROTATIONS.filter
              (fun r => decide (r ∈ m.allowed_rotations))).length)).sum := by
  constructor
  · exact expand_models_eq_bind models axis
  · rw [expand_models_eq_bind models axis, List.length_flatMap]
    have h2 : models.enum.map (fun im => (variantGroup axis im.1 im.2).length) =
        models.map (fun m =>
          (ALL_NODE_ROTATIONS.filter
              (fun r => decide (r ∈ m.allowed_rotations))).length) := by
      have h3 : ∀ im : Nat × NodeModel,
          (variantGroup axis im.1 im.2).length =
            (ALL_NODE_ROTATIONS.filter
                (fun r => decide (r ∈ im.2.allowed_rotations))).length := by
        intro im
        rw [variantGroup, List.length_map]
      calc models.enum.map (fun im => (variantGroup axis im.1 im.2).length)
          = models.enum.map ((fun m =>
              (ALL_NODE_ROTATIONS.filter
                  (fun r => decide (r ∈ m.allowed_rotations))).length) ∘
                Prod.snd) := by
            exact List.map_congr_left (fun im _ => h3 im)
        _ = (models.enum.map Prod.snd).map (fun m =>
              (ALL_NODE_ROTATIONS.filter
                  (fun r => decide (r ∈ m.allowed_rotations))).length) := by
            rw [List.map_map]
        _ = _ := by rw [List.enum_map_snd]
    rw [← h2]
    rfl

/-- C10: every rotation-configuring operation leaves `Rot0` allowed —
after construction (`new_cartesian_2d`, `new_cartesian_3d`) and after
`with_rotation`, `with_rotations`, `with_all_rotations`,
`with_no_rotations` — hence expansion yields zero variants iff the
model list itself is empty. -/
theorem claim10_rot0_always_allowed :
    (∀ s, NodeRotation.Rot0 ∈ (NodeModel.new_cartesian_2d s).allowed_rotations) ∧
    (∀ s, NodeRotation.Rot0 ∈ (NodeModel.new_cartesian_3d s).allowed_rotations) ∧
    (∀ (m : NodeModel) (r : NodeRotation),
      NodeRotation.Rot0 ∈ (m.with_rotation r).allowed_rotations) ∧
    (∀ (m : NodeModel) (rs : List NodeRotation),
      NodeRotation.Rot0 ∈ (m.with_rotations rs).allowed_rotations) ∧
    (∀ m : NodeModel,
      NodeRotation.Rot0 ∈ m.with_all_rotations.allowed_rotations) ∧
    (∀ m : NodeModel,
      NodeRotation.Rot0 ∈ m.with_no_rotations.allowed_rotations) ∧
    (∀ (models : List NodeModel) (axis : Direction),
      (∀ m ∈ models, NodeRotation.Rot0 ∈ m.allowed_rotations) →
      (expand_models models axis = [] ↔ models = [])) := by
  refine ⟨fun s => ?_, fun s => ?_, fun m r => ?_, fun m rs => ?_, fun m => ?_,
    fun m => ?_, fun models axis hall => ?_⟩
  · simp [NodeModel.new_cartesian_2d]
  · simp [NodeModel.new_cartesian_3d]
  · exact (mem_setInsert _ _ _).mpr (Or.inl (List.mem_singleton.mpr rfl))
  · exact (mem_setInsert _ _ _).mpr (Or.inr rfl)
  · simp [NodeModel.with_all_rotations, ALL_NODE_ROTATIONS]
  · simp [NodeModel.with_no_rotations]
  · constructor
    · intro h
      match models, hall, h with
      | [], _, _ => rfl
      | m :: rest, hall, h =>
          exfalso
          rw [expand_models_eq_bind] at h
          rw [List.flatMap_eq_nil_iff] at h
          have hmem : ((0, m) : Nat × NodeModel) ∈ (m :: rest).enum := by
            rw [List.mk_mem_enum_iff_getElem?]
            simp
          have hgroup := h (0, m) hmem
          rw [variantGroup, List.map_eq_nil_iff] at hgroup
          have hrot : NodeRotation.Rot0 ∈
              ALL_NODE_ROTATIONS.filter
                (fun r => decide (r ∈ m.allowed_rotations)) := by
            rw [List.mem_filter]
            refine ⟨by simp [ALL_NODE_ROTATIONS], ?_⟩
            exact decide_eq_true (hall m (List.mem_cons_self m rest))
          rw [hgroup] at hrot
          exact absurd hrot (List.not_mem_nil _)
    · rintro rfl
      rfl

/-- C7: the checked rule compilation fails with `EmptyRuleSet` exactly
when zero variants are produced (and only then is no rules value
constructed). -/
theorem claim7_empty_rule_set (models : List NodeModel)
    (collection : SocketCollection) (dirs : List Direction)
    (axis : Direction) :
    rules_new_checked models collection dirs axis =
        Except.error RulesError.EmptyRuleSet ↔
      expand_models models axis = [] := by
  unfold rules_new_checked
  by_cases h : (expand_models models axis).isEmpty
  · rw [if_pos h]
    simp [List.isEmpty_iff.mp h]
  · rw [if_neg h]
    rw [List.isEmpty_iff] at h
    exact iff_of_false (fun hc => Except.noConfusion hc) h

/-- Length-four lists are four-element lists. -/
theorem list_len_four {α : Type} (l : List α) (h : l.length = 4) :
    ∃ a b c d, l = [a, b, c, d] := by
  rcases l with _ | ⟨a, l⟩
  · revert h
    simp only [List.length_nil]
    omega
  rcases l with _ | ⟨b, l⟩
  · revert h
    simp only [List.length_cons, List.length_nil]
    omega
  rcases l with _ | ⟨c, l⟩
  · revert h
    simp only [List.length_cons, List.length_nil]
    omega
  rcases l with _ | ⟨d, l⟩
  · revert h
    simp only [List.length_cons, List.length_nil]
    omega
  rcases l with _ | ⟨e, l⟩
  · exact ⟨a, b, c, d, rfl⟩
  · revert h
    simp only [List.length_cons, List.length_nil]
    omega

/-- Length-six lists are six-element lists. -/
theorem list_len_six {α : Type} (l : List α) (h : l.length = 6) :
    ∃ a b c d e g, l = [a, b, c, d, e, g] := by
  rcases l with _ | ⟨a, l⟩
  · revert h
    simp only [List.length_nil]
    omega
  rcases l with _ | ⟨b, l⟩
  · revert h
    simp only [List.length_cons, List.length_nil]
    omega
  rcases l with _ | ⟨c, l⟩
  · revert h
    simp only [List.length_cons, List.length_nil]
    omega
  rcases l with _ | ⟨d, l⟩
  · revert h
    simp only [List.length_cons, List.length_nil]
    omega
  rcases l with _ | ⟨e, l⟩
  · revert h
    simp only [List.length_cons, List.length_nil]
    omega
  rcases l with _ | ⟨g, l⟩
  · revert h
    simp only [List.length_cons, List.length_nil]
    omega
  rcases l with _ | ⟨o, l⟩
  · exact ⟨a, b, c, d, e, g, rfl⟩
  · revert h
    simp only [List.length_cons, List.length_nil]
    omega

/-- Four quarter turns return a rotation to itself. -/
theorem rot90_four (r : NodeRotation) :
    (((r.rotated NodeRotation.Rot90).rotated NodeRotation.Rot90).rotated
        NodeRotation.Rot90).rotated NodeRotation.Rot90 = r := by
  cases r <;> rfl

/-- Four quarter turns return a socket to itself. -/
theorem socket_rot90_four (s : Socket) :
    (((s.rotated NodeRotation.Rot90).rotated NodeRotation.Rot90).rotated
        NodeRotation.Rot90).rotated NodeRotation.Rot90 = s := by
  obtain ⟨i, r⟩ := s
  simp only [Socket.rotated]
  rw [rot90_four r]

/-- Four quarter turns are the identity on a mapped socket list. -/
theorem map_rot90_four (l : List Socket) :
    ((((l.map (fun s => s.rotated NodeRotation.Rot90)).map
          (fun s => s.rotated NodeRotation.Rot90)).map
        (fun s => s.rotated NodeRotation.Rot90)).map
      (fun s => s.rotated NodeRotation.Rot90)) = l := by
  induction l with
  | nil => rfl
  | cons a t ih =>
      simp only [List.map_cons]
      rw [socket_rot90_four a, ih]

/-- C8: rotation composition is addition of quarter-turn indices mod 4;
consequently four `Rot90`s are the identity on any socket, on a 2D
model's face assignments (`NodeModel::rotated`) and on a 3D model's
face assignments around the `ZForward` axis. -/
theorem claim8_rotation_composition_modular :
    (∀ a b : NodeRotation, (a.rotated b).index = (a.index + b.index) % 4) ∧
    (∀ s : Socket,
      (((s.rotated NodeRotation.Rot90).rotated NodeRotation.Rot90).rotated
          NodeRotation.Rot90).rotated NodeRotation.Rot90 = s) ∧
    (∀ m : NodeModel, m.sockets.length = 4 →
      (((m.rotated NodeRotation.Rot90).rotated NodeRotation.Rot90).rotated
          NodeRotation.Rot90).rotated NodeRotation.Rot90 = m) ∧
    (∀ m : NodeModel, m.sockets.length = 6 →
      (((m.rotated_3d NodeRotation.Rot90 Direction.ZForward).rotated_3d
            NodeRotation.Rot90 Direction.ZForward).rotated_3d
          NodeRotation.Rot90 Direction.ZForward).rotated_3d
        NodeRotation.Rot90 Direction.ZForward = m) := by
  refine ⟨by decide, socket_rot90_four, fun m h => ?_, fun m h => ?_⟩
  · obtain ⟨sockets, w, ar, nm⟩ := m
    simp only at h
    obtain ⟨p, q, u, v, rfl⟩ := list_len_four sockets h
    have step : ∀ l0 l1 l2 l3 : List Socket,
        (⟨[l0, l1, l2, l3], w, ar, nm⟩ : NodeModel).rotated
            NodeRotation.Rot90 =
          ⟨[l3, l0, l1, l2], w, ar, nm⟩ := fun _ _ _ _ => rfl
    rw [step, step, step, step]
  · obtain ⟨sockets, w, ar, nm⟩ := m
    simp only at h
    obtain ⟨p, q, u, v, y, z, rfl⟩ := list_len_six sockets h
    have step : ∀ l0 l1 l2 l3 l4 l5 : List Socket,
        (⟨[l0, l1, l2, l3, l4, l5], w, ar, nm⟩ : NodeModel).rotated_3d
            NodeRotation.Rot90 Direction.ZForward =
          ⟨[l3, l0, l1, l2,
            l4.map (fun s => s.rotated NodeRotation.Rot90),
            l5.map (fun s => s.rotated NodeRotation.Rot90)], w, ar, nm⟩ :=
      fun _ _ _ _ _ _ => rfl
    rw [step, step, step, step, map_rot90_four y, map_rot90_four z]

/-- The socket returned by the `n`-th of a run of successive `create`
calls starting from `sc` (`createStream sc 0` is the first). -/
def createStream (sc : SocketCollection) : Nat → Socket
  | 0 => (sc.create).1
  | n + 1 => createStream (sc.create).2 n

theorem createStream_eq (sc : SocketCollection) (n : Nat)
    (h : sc.incremental_socket_index + n < 2 ^ 32) :
    createStream sc n = Socket.new (sc.incremental_socket_index + n) := by
  induction n generalizing sc with
  | zero => rfl
  | succ n ih =>
      have hmod : ((sc.create).2).incremental_socket_index =
          sc.incremental_socket_index + 1 := by
        simp only [SocketCollection.create]
        exact Nat.mod_eq_of_lt (by omega)
      have h2 : ((sc.create).2).incremental_socket_index + n < 2 ^ 32 := by
        rw [hmod]
        omega
      calc createStream sc (n + 1) = createStream (sc.create).2 n := rfl
        _ = Socket.new (((sc.create).2).incremental_socket_index + n) := ih _ h2
        _ = Socket.new (sc.incremental_socket_index + (n + 1)) := by
            rw [hmod]
            congr 1
            omega

/-- C9: socket identity is the pair (counter index, rotation tag) — the
64-bit id encoding is injective over 32-bit indices — and successive
`create` calls return sockets with rotation tag `Rot0` and strictly
increasing, pairwise distinct indices (within the `u32` counter
range). -/
theorem claim9_socket_identity :
    (∀ s1 s2 : Socket, s1.socket_index < 2 ^ 32 → s2.socket_index < 2 ^ 32 →
      (s1.id = s2.id ↔ s1 = s2)) ∧
    (∀ (sc : SocketCollection) (n m : Nat), n < m →
      sc.incremental_socket_index + m < 2 ^ 32 →
      (createStream sc n).rot = NodeRotation.Rot0 ∧
        (createStream sc n).socket_index <
          (createStream sc m).socket_index) := by
  constructor
  · rintro ⟨i1, r1⟩ ⟨i2, r2⟩ h1 h2
    constructor
    · intro h
      have hb1 : i1 < 2 ^ 32 := h1
      have hb2 : i2 < 2 ^ 32 := h2
      have hN : i1 + r1.index * 2 ^ 32 = i2 + r2.index * 2 ^ 32 := h
      clear h
      revert hN
      cases r1 <;> cases r2 <;> intro hN <;>
        simp only [NodeRotation.index] at hN <;>
        simp only [Socket.mk.injEq, eq_self_iff_true, and_true] <;>
        omega
    · intro h
      cases h
      rfl
  · intro sc n m hnm hbound
    rw [createStream_eq sc n (by omega), createStream_eq sc m (by omega)]
    exact ⟨rfl, by simp only [Socket.new]; omega⟩

set_option maxHeartbeats 3200000 in
/-- C4: for a model, rotation `r` and rotation axis, the rotated socket
lists place, on the face at planar-basis index `i`, the sockets
originally declared on basis index `(i - r) mod 4`, while the two faces
along the rotation axis (when the socket table covers them) keep their
direction index with every socket's rotation tag advanced by `r`.
Stated for the socket-table shapes the library constructs: six faces
(3D, any axis) or four faces with the fixed 2D axis. -/
theorem claim4_rotated_sockets (m : NodeModel) (r : NodeRotation)
    (axis : Direction) (i : Nat) (hi : i < 4)
    (hlen : m.sockets.length = 6 ∨
      (m.sockets.length = 4 ∧ axis = CARTESIAN_2D_ROTATION_AXIS)) :
    (m.rotated_sockets r axis).getD
        (axis.rotation_basis.getD i default).toIndex [] =
      m.sockets.getD
        (axis.rotation_basis.getD ((i + 4 - r.index) % 4) default).toIndex [] ∧
    (axis.toIndex < m.sockets.length →
      (m.rotated_sockets r axis).getD axis.toIndex [] =
        (m.sockets.getD axis.toIndex []).map (fun s => s.rotated r) ∧
      (m.rotated_sockets r axis).getD axis.opposite.toIndex [] =
        (m.sockets.getD axis.opposite.toIndex []).map (fun s => s.rotated r)) := by
  obtain ⟨sockets, w, ar, nm⟩ := m
  rcases hlen with h6 | ⟨h4, haxis⟩
  · have h6n : sockets.length = 6 := h6
    obtain ⟨p, q, u, v, y, z, rfl⟩ := list_len_six sockets h6n
    cases axis <;> cases r <;> interval_cases i <;>
      exact ⟨rfl, fun _ => ⟨rfl, rfl⟩⟩
  · subst haxis
    have h4n : sockets.length = 4 := h4
    obtain ⟨p, q, u, v, rfl⟩ := list_len_four sockets h4n
    cases r <;> interval_cases i <;>
      exact ⟨rfl, fun h => absurd h
        (by simp [CARTESIAN_2D_ROTATION_AXIS, Direction.toIndex])⟩

/-! ## Concrete inputs for the witnesses -/

/-- A collection with one self-compatible socket. -/
def demoCollection : SocketCollection :=
  SocketCollection.new.add_connection (Socket.new 0) [Socket.new 0]

/-- A collection connecting two distinct sockets. -/
def demoCollection2 : SocketCollection :=
  SocketCollection.new.add_connection (Socket.new 0) [Socket.new 1]

/-- A concrete 2D model (four faces). -/
def demoModel2 : NodeModel :=
  ⟨[[Socket.new 0], [Socket.new 1], [Socket.new 2], [Socket.new 3]], 1,
    [NodeRotation.Rot0], none⟩

/-- A concrete 3D model (six faces). -/
def demoModel3 : NodeModel :=
  ⟨[[Socket.new 0], [Socket.new 1], [Socket.new 2], [Socket.new 3],
    [Socket.new 4], [Socket.new 5]], 1, [NodeRotation.Rot0], none⟩

/-- Witness for C1 at a concrete rule set. -/
theorem claim1_witness :
    ((1 : ModelIndex) ∈ allowed_neighbours_at CARTESIAN_2D_DIRS twoMonoVariants
        (fun l => l) 0 Direction.XForward ↔
      (0 : ModelIndex) ∈ allowed_neighbours_at CARTESIAN_2D_DIRS twoMonoVariants
        (fun l => l) 1 Direction.XForward.opposite) :=
  claim1_support_symmetric CARTESIAN_2D_DIRS twoMonoVariants (fun l => l)
    (fun l => List.Perm.refl l) (by decide) 0 1 Direction.XForward (by decide)

/-- Witness for C2 at a concrete rule set and collection. -/
theorem claim2_witness :
    ((1 : ModelIndex) ∈ compat_allowed_neighbours_at CARTESIAN_2D_DIRS
        demoCollection twoMonoVariants 0 Direction.XForward ↔
      ∃ s ∈ modelSockets twoMonoVariants 0 Direction.XForward,
        ∃ s2, s2 ∈ demoCollection.get_compatibles s ∧
          s2 ∈ modelSockets twoMonoVariants 1 Direction.XForward.opposite) :=
  claim2_compat_support_mem CARTESIAN_2D_DIRS demoCollection twoMonoVariants 0
    Direction.XForward (by decide) 1

/-- Witness for C4 at a concrete 3D model, rotation 90°, axis `XForward`
and basis index 2. -/
theorem claim4_witness :
    (demoModel3.rotated_sockets NodeRotation.Rot90 Direction.XForward).getD
        (Direction.XForward.rotation_basis.getD 2 default).toIndex [] =
      demoModel3.sockets.getD
        (Direction.XForward.rotation_basis.getD
          ((2 + 4 - NodeRotation.Rot90.index) % 4) default).toIndex [] ∧
    (demoModel3.rotated_sockets NodeRotation.Rot90 Direction.XForward).getD
        Direction.XForward.toIndex [] =
      (demoModel3.sockets.getD Direction.XForward.toIndex []).map
        (fun s => s.rotated NodeRotation.Rot90) :=
  ⟨(claim4_rotated_sockets demoModel3 NodeRotation.Rot90 Direction.XForward 2
      (by decide) (Or.inl rfl)).1,
   ((claim4_rotated_sockets demoModel3 NodeRotation.Rot90 Direction.XForward 2
      (by decide) (Or.inl rfl)).2 (by decide)).1⟩

/-- Witness for the amended C5 at a concrete rule set and two concrete
iteration orders. -/
theorem claim5_witness :
    (allowed_neighbours_at CARTESIAN_2D_DIRS twoMonoVariants (fun l => l) 0
        Direction.XForward).Nodup ∧
    ((1 : ModelIndex) ∈ allowed_neighbours_at CARTESIAN_2D_DIRS twoMonoVariants
        (fun l => l) 0 Direction.XForward ↔
      (1 : ModelIndex) ∈ allowed_neighbours_at CARTESIAN_2D_DIRS twoMonoVariants
        List.reverse 0 Direction.XForward) :=
  claim5_support_deterministic_up_to_order CARTESIAN_2D_DIRS twoMonoVariants
    (fun l => l) List.reverse (fun l => List.Perm.refl l)
    (fun l => List.reverse_perm l) 0 Direction.XForward 1

/-- Witness for C6 at a concrete collection built through the API. -/
theorem claim6_witness :
    ((Socket.new 1).id ∈ demoCollection2.compatibles (Socket.new 0).id ↔
      (Socket.new 0).id ∈ demoCollection2.compatibles (Socket.new 1).id) :=
  claim6_compat_symmetric demoCollection2
    (SocketCollection.Reachable.add_connection SocketCollection.new
      (Socket.new 0) [Socket.new 1] SocketCollection.Reachable.new)
    (Socket.new 0).id (Socket.new 1).id

/-- Witness for C8 at a concrete four-face model. -/
theorem claim8_witness :
    demoModel2.sockets.length = 4 ∧
    (((demoModel2.rotated NodeRotation.Rot90).rotated
        NodeRotation.Rot90).rotated NodeRotation.Rot90).rotated
      NodeRotation.Rot90 = demoModel2 :=
  ⟨rfl, claim8_rotation_composition_modular.2.2.1 demoModel2 rfl⟩

/-- Witness for C9 at concrete sockets and a fresh collection. -/
theorem claim9_witness :
    (((Socket.new 0).id = (Socket.new 1).id ↔ Socket.new 0 = Socket.new 1)) ∧
    ((createStream SocketCollection.new 0).rot = NodeRotation.Rot0 ∧
      (createStream SocketCollection.new 0).socket_index <
        (createStream SocketCollection.new 2).socket_index) :=
  ⟨claim9_socket_identity.1 (Socket.new 0) (Socket.new 1) (by decide) (by decide),
   claim9_socket_identity.2 SocketCollection.new 0 2 (by decide) (by decide)⟩

/-- Witness for C10 at a concrete one-model list. -/
theorem claim10_witness :
    (∀ m ∈ [demoModel2], NodeRotation.Rot0 ∈ m.allowed_rotations) ∧
    (expand_models [demoModel2] CARTESIAN_2D_ROTATION_AXIS = [] ↔
      ([demoModel2] : List NodeModel) = []) :=
  ⟨by decide,
   claim10_rot0_always_allowed.2.2.2.2.2.2 [demoModel2]
     CARTESIAN_2D_ROTATION_AXIS (by decide)⟩

end GhxProcGen
